import Mathlib

/-!
Verification development for the fuchsian engine behind the example
scripts of this repository.  The repository ships only call sites
(example scripts invoking python_api.moebius_matrix, python_api.orbit,
python_api.geodesic_orbit and python_api.horocyclic_orbit); the engine
itself is not part of the visible sources, so every engine definition
below is modelled from the specification.  Real scalars are modelled by
exact rationals; the numeric tolerance of the spec becomes exact
comparison with zero (the configurable epsilon is kept as an explicit
parameter where the spec makes it observable, namely at construction).
-/

namespace Fuchsian

/-- Modelled from the spec: a Point of the extended complex plane is a
finite complex number given by coordinates, or the Infinity sentinel.
The engine source is absent from the repository. -/
inductive Point where
  | fin (x y : ℚ)
  | inf
deriving DecidableEq

/-- Modelled from the spec: a Transformation is a 2x2 matrix (a, b, c, d)
representing the map sending z to (a*z+b)/(c*z+d).  The engine source is
absent from the repository. -/
structure Moeb where
  a : ℚ
  b : ℚ
  c : ℚ
  d : ℚ
deriving DecidableEq

/-- Modelled from the spec: the determinant a*d - b*c of a Transformation. -/
def det (f : Moeb) : ℚ := f.a * f.d - f.b * f.c

/-- Modelled from the spec: the identity transformation (1, 0, 0, 1). -/
def identityMoeb : Moeb := ⟨1, 0, 0, 1⟩

/-- Modelled from the spec: composition by matrix product, g applied first. -/
def compose (f g : Moeb) : Moeb :=
  ⟨f.a * g.a + f.b * g.c, f.a * g.b + f.b * g.d,
   f.c * g.a + f.d * g.c, f.c * g.b + f.d * g.d⟩

/-- Modelled from the spec: the inverse of (a, b, c, d) is (d, -b, -c, a)
scaled by the reciprocal of the determinant. -/
def invert (f : Moeb) : Moeb :=
  ⟨f.d / det f, -f.b / det f, -f.c / det f, f.a / det f⟩

/-- Modelled from the spec: apply a Transformation to a Point.  For finite
z the pole test compares the denominator c*z + d with zero (exact rational
model of the epsilon test); Infinity maps to Infinity when c = 0 and to
a/c otherwise.  Complex arithmetic is written out on coordinates. -/
def apply (f : Moeb) : Point → Point
  | Point.inf => if f.c = 0 then Point.inf else Point.fin (f.a / f.c) 0
  | Point.fin x y =>
      if f.c * x + f.d = 0 ∧ f.c * y = 0 then Point.inf
      else
        Point.fin
          (((f.a * x + f.b) * (f.c * x + f.d) + (f.a * y) * (f.c * y)) /
            ((f.c * x + f.d) ^ 2 + (f.c * y) ^ 2))
          (((f.a * y) * (f.c * x + f.d) - (f.a * x + f.b) * (f.c * y)) /
            ((f.c * x + f.d) ^ 2 + (f.c * y) ^ 2))

/-- Modelled from the spec: the error taxonomy of the engine. -/
inductive EngineError where
  | DegenerateTransformation
  | InvalidGeneratorSet
  | InvalidCurveParameters
deriving DecidableEq

/-- Modelled from the spec: validated construction of a Transformation
(the moebius_matrix entry point of the python api); construction fails
with DegenerateTransformation unless the determinant magnitude exceeds
the configured epsilon. -/
def makeTransformation (eps a b c d : ℚ) : Except EngineError Moeb :=
  if |a * d - b * c| ≤ eps then Except.error EngineError.DegenerateTransformation
  else Except.ok ⟨a, b, c, d⟩

/-- Modelled from the spec: the traversal strategy of the Word Enumerator. -/
inductive Mode where
  | sequential
  | random
deriving DecidableEq

/-- An index into the generator list together with an inversion flag. -/
abbrev Letter := ℕ × Bool

/-- Modelled from the spec: the alphabet of the free monoid, generators
before their inverses, in the caller supplied generator order. -/
def letters (k : ℕ) : List Letter :=
  (List.range k).map (fun i => (i, false)) ++ (List.range k).map (fun i => (i, true))

/-- Whether the second letter undoes the first (same generator, opposite
inversion flag); such immediate cancellations are skipped. -/
def cancels (x y : Letter) : Bool := x.1 == y.1 && x.2 != y.2

/-- All one-letter extensions of a word that do not cancel trivially with
its last letter. -/
def extendWord (ls : List Letter) (w : List Letter) : List (List Letter) :=
  (ls.filter (fun l =>
    match w.getLast? with
    | none => true
    | some last => !(cancels last l))).map (fun l => w ++ [l])

/-- All non-cancelling extensions of every word of a level, in level order. -/
def nextLevel (ls : List Letter) : List (List Letter) → List (List Letter)
  | [] => []
  | w :: rest => extendWord ls w ++ nextLevel ls rest

/-- Modelled from the spec: breadth-first enumeration of reduced words by
increasing length, driven by a fuel argument (one unit of fuel per level). -/
def bfs (ls : List Letter) : ℕ → List (List Letter) → List (List Letter)
  | 0, _ => []
  | n + 1, level => level ++ bfs ls n (nextLevel ls level)

/-- Modelled from the spec: the first n sequential-mode words over k
generators; the word list starts with the empty word (the identity). -/
def seqWords (k n : ℕ) : List (List Letter) := (bfs (letters k) n [[]]).take n

/-- The Transformation denoted by one letter: a generator or its inverse. -/
def letterMoeb (G : List Moeb) (l : Letter) : Moeb :=
  if l.2 then invert (G.getD l.1 identityMoeb) else G.getD l.1 identityMoeb

/-- The Transformation denoted by a word: the left-to-right product of its
letters, starting from the identity. -/
def wordToMoeb (G : List Moeb) (w : List Letter) : Moeb :=
  w.foldl (fun acc l => compose acc (letterMoeb G l)) identityMoeb

/-- Modelled from the spec: a concrete deterministic pseudo-random step
for the seeded random mode (a linear congruential update; the spec fixes
only that the walk is seeded and reproducible). -/
def lcg (s : ℕ) : ℕ := (1103515245 * s + 12345) % 2147483648

/-- Modelled from the spec: the random walk emits count elements, right
multiplying a uniformly chosen generator or inverse into a running
product that starts at the identity. -/
def randomWalk (G : List Moeb) : ℕ → Moeb → ℕ → List Moeb
  | 0, _, _ => []
  | n + 1, acc, s =>
      compose acc (letterMoeb G ((letters G.length).getD (lcg s % (letters G.length).length) (0, false))) ::
        randomWalk G n
          (compose acc (letterMoeb G ((letters G.length).getD (lcg s % (letters G.length).length) (0, false))))
          (lcg s)

/-- Modelled from the spec: the Word Enumerator.  It fails with
InvalidGeneratorSet when the generator list is empty and count exceeds
one; otherwise it produces exactly count Transformations in traversal
order, by breadth-first words in sequential mode and by a seeded walk in
random mode. -/
def enumerate (G : List Moeb) (count : ℕ) (mode : Mode) (seed : ℕ) :
    Except EngineError (List Moeb) :=
  if G = [] ∧ 1 < count then Except.error EngineError.InvalidGeneratorSet
  else Except.ok (match mode with
    | Mode.sequential => (seqWords G.length count).map (wordToMoeb G)
    | Mode.random => randomWalk G count identityMoeb seed)

/-- Modelled from the spec: the point-orbit operation applies each
enumerated Transformation to the base point, in enumeration order. -/
def orbit (G : List Moeb) (basePoint : Point) (count : ℕ) (mode : Mode) (seed : ℕ) :
    Except EngineError (List Point) :=
  match enumerate G count mode seed with
  | Except.error e => Except.error e
  | Except.ok ws => Except.ok (ws.map (fun w => apply w basePoint))

/-- Modelled from the spec: the handoff step towards the plotting front
end drops points equal to Infinity from point-orbit output. -/
def handoffPoints (ps : List Point) : List Point :=
  ps.filter (fun p => p != Point.inf)

/-- Modelled from the spec: a boundary parameter of the upper half plane,
a real number or Infinity.  Geodesics are identified by a pair of such
values. -/
inductive Bdry where
  | fin (t : ℚ)
  | inf
deriving DecidableEq

/-- Modelled from the spec: the action of a Transformation on a boundary
parameter; a real matrix maps the extended real axis to itself, with the
same pole convention as the action on Points. -/
def applyBdry (f : Moeb) : Bdry → Bdry
  | Bdry.inf => if f.c = 0 then Bdry.inf else Bdry.fin (f.a / f.c)
  | Bdry.fin t =>
      if f.c * t + f.d = 0 then Bdry.inf
      else Bdry.fin ((f.a * t + f.b) / (f.c * t + f.d))

/-- Modelled from the spec: the configured finite cutoff height for
sampling vertical-ray geodesics. -/
def Hmax : ℚ := 10

/-- The positive sample heights used for a vertical ray, all within the
cutoff. -/
def rayHeights (res : ℕ) : List ℚ :=
  (List.range res).map (fun i => Hmax * ((i : ℚ) + 1) / (res : ℚ))

/-- Modelled from the spec: sample a geodesic given by two boundary
parameters.  A finite pair yields points of the semicircle over the
diameter between the endpoints, traced by a rational parametrization of
the circle (the spec leaves the exact spacing open); a pair with one
Infinity yields the vertical ray over the finite endpoint, sampled on a
bounded height range; the doubly-degenerate case falls back to the ray
over zero so the function stays total. -/
def sampleGeodesic (p q : Bdry) (res : ℕ) : List Point :=
  match p, q with
  | Bdry.fin s, Bdry.fin t =>
      (List.range res).map (fun i =>
        Point.fin
          ((s + t) / 2 + (|t - s| / 2) * (1 - (i : ℚ) ^ 2) / (1 + (i : ℚ) ^ 2))
          ((|t - s| / 2) * (2 * (i : ℚ)) / (1 + (i : ℚ) ^ 2)))
  | Bdry.fin s, Bdry.inf => (rayHeights res).map (fun h => Point.fin s h)
  | Bdry.inf, Bdry.fin t => (rayHeights res).map (fun h => Point.fin t h)
  | Bdry.inf, Bdry.inf => (rayHeights res).map (fun h => Point.fin 0 h)

/-- The circline of the upper half plane determined by two boundary
parameters: the circle over the diameter between two finite endpoints, or
the vertical line over the finite endpoint when the other is Infinity
(the doubly-degenerate case matches the sampling fallback). -/
def onCircline (p q : Bdry) (x y : ℚ) : Prop :=
  match p, q with
  | Bdry.fin s, Bdry.fin t => (x - (s + t) / 2) ^ 2 + y ^ 2 = ((t - s) / 2) ^ 2
  | Bdry.fin s, Bdry.inf => x = s
  | Bdry.inf, Bdry.fin t => x = t
  | Bdry.inf, Bdry.inf => x = 0

/-- The circline membership predicate lifted to Points; the Infinity
sentinel is never on a sampled circline. -/
def onCirclinePt (p q : Bdry) : Point → Prop
  | Point.fin x y => onCircline p q x y
  | Point.inf => False

/-- Modelled from the spec: the geodesic-orbit operation.  The Word
Enumerator runs first (its failure is surfaced immediately); equal
endpoints fail with InvalidCurveParameters; otherwise each enumerated
Transformation is applied to the two defining boundary parameters and the
resulting geodesic is sampled, so the transformed curve is computed from
its canonical parameters and never by refitting transformed samples. -/
def geodesic_orbit (G : List Moeb) (endpoints : Bdry × Bdry) (count res : ℕ)
    (mode : Mode) (seed : ℕ) : Except EngineError (List (List Point)) :=
  match enumerate G count mode seed with
  | Except.error e => Except.error e
  | Except.ok ws =>
      if endpoints.1 = endpoints.2 then Except.error EngineError.InvalidCurveParameters
      else Except.ok (ws.map (fun w =>
        sampleGeodesic (applyBdry w endpoints.1) (applyBdry w endpoints.2) res))

/-- Modelled from the spec: a horocycle, tangent to the boundary at
Infinity with a height, or tangent at a finite point with a Euclidean
diameter. -/
inductive Horo where
  | atInf (height : ℚ)
  | atFin (t : ℚ) (diam : ℚ)
deriving DecidableEq

/-- The ideal tangency parameter of a horocycle. -/
def horoTangency : Horo → Bdry
  | Horo.atInf _ => Bdry.inf
  | Horo.atFin t _ => Bdry.fin t

/-- The curve point opposite the tangency (the top of the tangent circle,
or a point of the horizontal line at its height). -/
def horoApexPoint : Horo → Point
  | Horo.atInf h => Point.fin 0 h
  | Horo.atFin t d => Point.fin t d

/-- Modelled from the spec: transport of a horocycle through a
Transformation by mapping its two defining parameters (the tangency
parameter and a defining curve point); the representation switches
between the tangent-at-Infinity and tangent-at-finite cases according to
the image of the tangency, with total fallbacks for numerically
degenerate images. -/
def transformHoro (f : Moeb) (H : Horo) : Horo :=
  match applyBdry f (horoTangency H), apply f (horoApexPoint H) with
  | Bdry.inf, Point.fin _ y => Horo.atInf y
  | Bdry.inf, Point.inf => Horo.atInf 1
  | Bdry.fin t, Point.fin x y =>
      Horo.atFin t (if y = 0 then 0 else ((x - t) ^ 2 + y ^ 2) / y)
  | Bdry.fin t, Point.inf => Horo.atFin t 0

/-- Modelled from the spec: the configured width of the horizontal sample
segment for horocycles tangent at Infinity. -/
def W : ℚ := 10

/-- Modelled from the spec: sample a horocycle.  The tangent-at-Infinity
case yields a horizontal segment of configured width; the finite-tangent
case yields points of the tangent circle by a rational parametrization
that excludes the tangency point itself. -/
def sampleHoro (H : Horo) (res : ℕ) : List Point :=
  match H with
  | Horo.atInf h =>
      (List.range res).map (fun i =>
        Point.fin (-(W / 2) + (i : ℚ) * W / ((res : ℚ) - 1)) h)
  | Horo.atFin t d =>
      (List.range res).map (fun i =>
        Point.fin (t + d * ((i : ℚ) + 1) / (1 + ((i : ℚ) + 1) ^ 2))
          (d * ((i : ℚ) + 1) ^ 2 / (1 + ((i : ℚ) + 1) ^ 2)))

/-- Modelled from the spec: the horocyclic-orbit operation.  The Word
Enumerator runs first; a non-positive height fails with
InvalidCurveParameters; otherwise the base horocycle is tangent at
Infinity with the given height and each enumerated Transformation
transports it and samples the image. -/
def horocyclic_orbit (G : List Moeb) (height : ℚ) (count res : ℕ)
    (mode : Mode) (seed : ℕ) : Except EngineError (List (List Point)) :=
  match enumerate G count mode seed with
  | Except.error e => Except.error e
  | Except.ok ws =>
      if height ≤ 0 then Except.error EngineError.InvalidCurveParameters
      else Except.ok (ws.map (fun w => sampleHoro (transformHoro w (Horo.atInf height)) res))

/-! ### Basic lemmas about the model -/

lemma apply_identity (p : Point) : apply identityMoeb p = p := by
  cases p with
  | inf => simp [apply, identityMoeb]
  | fin x y =>
      simp only [apply, identityMoeb]
      norm_num

lemma randomWalk_length (G : List Moeb) :
    ∀ (n : ℕ) (acc : Moeb) (s : ℕ), (randomWalk G n acc s).length = n := by
  intro n
  induction n with
  | zero => intro acc s; rfl
  | succ m ih => intro acc s; simp [randomWalk, ih]

lemma letter_mem_letters (k : ℕ) (hk : 1 ≤ k) (bb : Bool) : ((0, bb) : Letter) ∈ letters k := by
  have h0 : 0 ∈ List.range k := List.mem_range.mpr hk
  cases bb
  · exact List.mem_append.mpr (Or.inl (List.mem_map.mpr ⟨0, h0, rfl⟩))
  · exact List.mem_append.mpr (Or.inr (List.mem_map.mpr ⟨0, h0, rfl⟩))

lemma extendWord_ne_nil (k : ℕ) (hk : 1 ≤ k) (w : List Letter) :
    extendWord (letters k) w ≠ [] := by
  unfold extendWord
  intro hnil
  rw [List.map_eq_nil_iff] at hnil
  cases hlast : w.getLast? with
  | none =>
      have hm : ((0, false) : Letter) ∈ letters k := letter_mem_letters k hk false
      have hdrop := List.filter_eq_nil_iff.mp hnil _ hm
      simp [hlast] at hdrop
  | some last =>
      have hm : ((0, last.2) : Letter) ∈ letters k := letter_mem_letters k hk _
      have hsurv : cancels last (0, last.2) = false := by simp [cancels]
      have hdrop := List.filter_eq_nil_iff.mp hnil _ hm
      simp [hlast, hsurv] at hdrop

lemma nextLevel_ne_nil (k : ℕ) (hk : 1 ≤ k) (level : List (List Letter)) (hl : level ≠ []) :
    nextLevel (letters k) level ≠ [] := by
  cases level with
  | nil => exact absurd rfl hl
  | cons w rest =>
      intro h
      rcases List.append_eq_nil.mp h with ⟨h1, _⟩
      exact extendWord_ne_nil k hk w h1

lemma bfs_length_ge (k : ℕ) (hk : 1 ≤ k) :
    ∀ (fuel : ℕ) (level : List (List Letter)), level ≠ [] →
      fuel ≤ (bfs (letters k) fuel level).length := by
  intro fuel
  induction fuel with
  | zero => intro level _; exact Nat.zero_le _
  | succ m ih =>
      intro level hl
      have h1 : 1 ≤ level.length := List.length_pos.mpr hl
      have h2 := ih (nextLevel (letters k) level) (nextLevel_ne_nil k hk level hl)
      have hb : bfs (letters k) (m + 1) level =
          level ++ bfs (letters k) m (nextLevel (letters k) level) := rfl
      rw [hb, List.length_append]
      omega

lemma seqWords_length (k n : ℕ) (hk : 1 ≤ k) : (seqWords k n).length = n := by
  unfold seqWords
  rw [List.length_take]
  have h := bfs_length_ge k hk n [[]] (by simp)
  omega

lemma enumerate_ok (G : List Moeb) (count : ℕ) (mode : Mode) (seed : ℕ) (hG : G ≠ []) :
    ∃ ws, enumerate G count mode seed = Except.ok ws ∧ ws.length = count := by
  have hcond : ¬(G = [] ∧ 1 < count) := by simp [hG]
  have hk : 1 ≤ G.length := List.length_pos.mpr hG
  cases mode with
  | sequential =>
      refine ⟨(seqWords G.length count).map (wordToMoeb G), ?_, ?_⟩
      · unfold enumerate; rw [if_neg hcond]
      · rw [List.length_map]; exact seqWords_length _ _ hk
  | random =>
      refine ⟨randomWalk G count identityMoeb seed, ?_, ?_⟩
      · unfold enumerate; rw [if_neg hcond]
      · exact randomWalk_length G count identityMoeb seed

lemma sampleGeodesic_on (p q : Bdry) (res : ℕ) :
    ∀ pt ∈ sampleGeodesic p q res, onCirclinePt p q pt := by
  intro pt hpt
  cases p with
  | fin s =>
      cases q with
      | fin t =>
          simp only [sampleGeodesic, List.mem_map] at hpt
          obtain ⟨i, _, rfl⟩ := hpt
          simp only [onCirclinePt, onCircline]
          have h1 : (1 : ℚ) + (i : ℚ) ^ 2 ≠ 0 := by positivity
          rcases abs_cases (t - s) with ⟨habs, _⟩ | ⟨habs, _⟩ <;> rw [habs] <;>
            field_simp <;> ring
      | inf =>
          simp only [sampleGeodesic, List.mem_map] at hpt
          obtain ⟨h, _, rfl⟩ := hpt
          simp [onCirclinePt, onCircline]
  | inf =>
      cases q with
      | fin t =>
          simp only [sampleGeodesic, List.mem_map] at hpt
          obtain ⟨h, _, rfl⟩ := hpt
          simp [onCirclinePt, onCircline]
      | inf =>
          simp only [sampleGeodesic, List.mem_map] at hpt
          obtain ⟨h, _, rfl⟩ := hpt
          simp [onCirclinePt, onCircline]

lemma sampleGeodesic_fin (p q : Bdry) (res : ℕ) :
    ∀ pt ∈ sampleGeodesic p q res, ∃ x y, pt = Point.fin x y := by
  intro pt hpt
  cases p <;> cases q <;> simp only [sampleGeodesic, List.mem_map] at hpt <;>
    obtain ⟨i, _, rfl⟩ := hpt <;> exact ⟨_, _, rfl⟩

lemma sampleHoro_fin (H : Horo) (res : ℕ) :
    ∀ pt ∈ sampleHoro H res, ∃ x y, pt = Point.fin x y := by
  intro pt hpt
  cases H <;> simp only [sampleHoro, List.mem_map] at hpt <;>
    obtain ⟨i, _, rfl⟩ := hpt <;> exact ⟨_, _, rfl⟩

lemma sq_add_sq_eq_zero_iff (u v : ℚ) : u ^ 2 + v ^ 2 = 0 ↔ u = 0 ∧ v = 0 := by
  constructor
  · intro h
    have hu : u ^ 2 = 0 := by nlinarith [sq_nonneg u, sq_nonneg v]
    have hv : v ^ 2 = 0 := by nlinarith [sq_nonneg u, sq_nonneg v]
    exact ⟨pow_eq_zero_iff two_ne_zero |>.mp hu, pow_eq_zero_iff two_ne_zero |>.mp hv⟩
  · rintro ⟨h1, h2⟩
    rw [h1, h2]
    norm_num

/-! ### Claims -/

/-- C1: for every non-empty generator set and every base point, the
sequential-mode orbit with count one is the one-element sequence holding
the base point itself, because the first enumerated word is the identity. -/
theorem claim_C1_orbit_count_one (G : List Moeb) (p : Point) (seed : ℕ) (hG : G ≠ []) :
    orbit G p 1 Mode.sequential seed = Except.ok [p] := by
  have henum : enumerate G 1 Mode.sequential seed = Except.ok [wordToMoeb G []] := by
    unfold enumerate
    rw [if_neg (by simp)]
    rfl
  simp only [orbit, henum, List.map_cons, List.map_nil]
  have hid : wordToMoeb G [] = identityMoeb := rfl
  rw [hid, apply_identity]

/-- C1 witness: the modular-group generators with base point (1, 0)
produce exactly the singleton (1, 0). -/
theorem claim_C1_orbit_count_one_witness :
    orbit [⟨1, 1, 0, 1⟩, ⟨0, -1, 1, 0⟩] (Point.fin 1 0) 1 Mode.sequential 0 =
      Except.ok [Point.fin 1 0] :=
  claim_C1_orbit_count_one [⟨1, 1, 0, 1⟩, ⟨0, -1, 1, 0⟩] (Point.fin 1 0) 0 (by simp)

/-- C2: with a non-empty generator set and count at least one, orbit
returns exactly count Points, one per enumerated Transformation and in
enumeration order; the Infinity-dropping handoff towards plotting can
only shorten that sequence, never lengthen it. -/
theorem claim_C2_orbit_length
    (G : List Moeb) (p : Point) (count seed : ℕ) (mode : Mode)
    (hG : G ≠ []) (hc : 1 ≤ count) :
    ∃ ws out, enumerate G count mode seed = Except.ok ws ∧
      orbit G p count mode seed = Except.ok out ∧
      out = ws.map (fun w => apply w p) ∧
      out.length = count ∧ (handoffPoints out).length ≤ count := by
  obtain ⟨ws, hws, hlen⟩ := enumerate_ok G count mode seed hG
  refine ⟨ws, ws.map (fun w => apply w p), hws, ?_, rfl, ?_, ?_⟩
  · simp [orbit, hws]
  · rw [List.length_map]; exact hlen
  · calc (handoffPoints (ws.map (fun w => apply w p))).length
        ≤ (ws.map (fun w => apply w p)).length := List.length_filter_le _ _
      _ = count := by rw [List.length_map]; exact hlen

/-- C2 witness: the modular-group generators with base point (1, 0),
count three, sequential mode. -/
theorem claim_C2_orbit_length_witness :
    ∃ ws out, enumerate [⟨1, 1, 0, 1⟩, ⟨0, -1, 1, 0⟩] 3 Mode.sequential 0 = Except.ok ws ∧
      orbit [⟨1, 1, 0, 1⟩, ⟨0, -1, 1, 0⟩] (Point.fin 1 0) 3 Mode.sequential 0 = Except.ok out ∧
      out = ws.map (fun w => apply w (Point.fin 1 0)) ∧
      out.length = 3 ∧ (handoffPoints out).length ≤ 3 :=
  claim_C2_orbit_length [⟨1, 1, 0, 1⟩, ⟨0, -1, 1, 0⟩] (Point.fin 1 0) 3 0 Mode.sequential
    (by simp) (by norm_num)

/-- C3: the single hyperbolic generator (5, 0, 0, 1/5) applied to base
point (1, 0) with count two in sequential mode yields the identity image
followed by (5*1+0)/(0*1+1/5) = 25. -/
theorem claim_C3_single_hyperbolic_generator :
    orbit [⟨5, 0, 0, 1/5⟩] (Point.fin 1 0) 2 Mode.sequential 0 =
      Except.ok [Point.fin 1 0, Point.fin 25 0] := by
  have henum : enumerate [(⟨5, 0, 0, 1/5⟩ : Moeb)] 2 Mode.sequential 0 =
      Except.ok [wordToMoeb [⟨5, 0, 0, 1/5⟩] [], wordToMoeb [⟨5, 0, 0, 1/5⟩] [(0, false)]] := by
    unfold enumerate
    rw [if_neg (by simp)]
    rfl
  simp only [orbit, henum, List.map_cons, List.map_nil]
  have h0 : wordToMoeb [(⟨5, 0, 0, 1/5⟩ : Moeb)] [] = identityMoeb := rfl
  have h1 : wordToMoeb [(⟨5, 0, 0, 1/5⟩ : Moeb)] [(0, false)] =
      compose identityMoeb ⟨5, 0, 0, 1/5⟩ := rfl
  have h2 : compose identityMoeb (⟨5, 0, 0, 1/5⟩ : Moeb) = ⟨5, 0, 0, 1/5⟩ := by
    simp only [compose, identityMoeb]
    norm_num
  rw [h0, h1, h2, apply_identity]
  simp only [apply]
  rw [if_neg (by norm_num)]
  norm_num

/-- C6: construction fails with DegenerateTransformation exactly when the
determinant magnitude does not exceed the configured epsilon, and in
particular the all-ones matrix with determinant zero is rejected. -/
theorem claim_C6_degenerate_construction :
    (∀ eps a b c d : ℚ,
      makeTransformation eps a b c d = Except.error EngineError.DegenerateTransformation ↔
        |a * d - b * c| ≤ eps) ∧
    makeTransformation (1 / 1000000000) 1 1 1 1 =
      Except.error EngineError.DegenerateTransformation := by
  constructor
  · intro eps a b c d
    unfold makeTransformation
    split_ifs with h
    · simp [h]
    · simp [h]
  · unfold makeTransformation
    rw [if_pos (by norm_num)]

/-- C7: the Word Enumerator, and with it all three orbit operations,
fails with InvalidGeneratorSet exactly when the generator set is empty
and count exceeds one; the failure is the whole result, so no fragmentary
output accompanies it. -/
theorem claim_C7_invalid_generator_set
    (G : List Moeb) (n res seed : ℕ) (mode : Mode) (p : Point) (pq : Bdry × Bdry) (ht : ℚ) :
    (enumerate G n mode seed = Except.error EngineError.InvalidGeneratorSet ↔
      G = [] ∧ 1 < n) ∧
    (orbit G p n mode seed = Except.error EngineError.InvalidGeneratorSet ↔
      G = [] ∧ 1 < n) ∧
    (geodesic_orbit G pq n res mode seed = Except.error EngineError.InvalidGeneratorSet ↔
      G = [] ∧ 1 < n) ∧
    (horocyclic_orbit G ht n res mode seed = Except.error EngineError.InvalidGeneratorSet ↔
      G = [] ∧ 1 < n) := by
  by_cases hcond : G = [] ∧ 1 < n
  · obtain ⟨hGnil, hn⟩ := hcond
    subst hGnil
    have he : enumerate [] n mode seed = Except.error EngineError.InvalidGeneratorSet := by
      unfold enumerate; rw [if_pos ⟨rfl, hn⟩]
    refine ⟨?_, ?_, ?_, ?_⟩ <;>
      simp [orbit, geodesic_orbit, horocyclic_orbit, he, hn]
  · have he : enumerate G n mode seed =
        Except.ok (match mode with
          | Mode.sequential => (seqWords G.length n).map (wordToMoeb G)
          | Mode.random => randomWalk G n identityMoeb seed) := by
      unfold enumerate; rw [if_neg hcond]
    refine ⟨?_, ?_, ?_, ?_⟩
    · simp [he, hcond]
    · simp [orbit, he, hcond]
    · simp only [geodesic_orbit, he]
      split_ifs <;> simp [hcond]
    · simp only [horocyclic_orbit, he]
      split_ifs <;> simp [hcond]

/-- C8: the three orbit operations are pure functions of their inputs
and the random-mode seed: two calls with identical generators, base
object, count, resolution and mode produce identical output, where the
seeds must agree only in random mode (sequential-mode output is
independent of the seed). -/
theorem claim_C8_two_run_determinism
    (G : List Moeb) (p : Point) (pq : Bdry × Bdry) (ht : ℚ)
    (n res seed seed2 : ℕ) (mode : Mode)
    (hseed : mode = Mode.sequential ∨ seed = seed2) :
    orbit G p n mode seed = orbit G p n mode seed2 ∧
    geodesic_orbit G pq n res mode seed = geodesic_orbit G pq n res mode seed2 ∧
    horocyclic_orbit G ht n res mode seed = horocyclic_orbit G ht n res mode seed2 := by
  rcases hseed with h | h
  · subst h
    exact ⟨rfl, rfl, rfl⟩
  · subst h
    exact ⟨rfl, rfl, rfl⟩

/-- C8 witness: sequential-mode calls with two different seeds (0 and 7)
agree on all three operations, and random-mode calls with the same seed
agree as well. -/
theorem claim_C8_two_run_determinism_witness :
    (orbit [⟨1, 1, 0, 1⟩] (Point.fin 1 0) 3 Mode.sequential 0 =
        orbit [⟨1, 1, 0, 1⟩] (Point.fin 1 0) 3 Mode.sequential 7 ∧
      geodesic_orbit [⟨1, 1, 0, 1⟩] (Bdry.fin (-1), Bdry.fin 1) 3 4 Mode.sequential 0 =
        geodesic_orbit [⟨1, 1, 0, 1⟩] (Bdry.fin (-1), Bdry.fin 1) 3 4 Mode.sequential 7 ∧
      horocyclic_orbit [⟨1, 1, 0, 1⟩] 2 3 4 Mode.sequential 0 =
        horocyclic_orbit [⟨1, 1, 0, 1⟩] 2 3 4 Mode.sequential 7) ∧
    (orbit [⟨1, 1, 0, 1⟩] (Point.fin 1 0) 3 Mode.random 7 =
        orbit [⟨1, 1, 0, 1⟩] (Point.fin 1 0) 3 Mode.random 7 ∧
      geodesic_orbit [⟨1, 1, 0, 1⟩] (Bdry.fin (-1), Bdry.fin 1) 3 4 Mode.random 7 =
        geodesic_orbit [⟨1, 1, 0, 1⟩] (Bdry.fin (-1), Bdry.fin 1) 3 4 Mode.random 7 ∧
      horocyclic_orbit [⟨1, 1, 0, 1⟩] 2 3 4 Mode.random 7 =
        horocyclic_orbit [⟨1, 1, 0, 1⟩] 2 3 4 Mode.random 7) :=
  ⟨claim_C8_two_run_determinism [⟨1, 1, 0, 1⟩] (Point.fin 1 0) (Bdry.fin (-1), Bdry.fin 1)
      2 3 4 0 7 Mode.sequential (Or.inl rfl),
    claim_C8_two_run_determinism [⟨1, 1, 0, 1⟩] (Point.fin 1 0) (Bdry.fin (-1), Bdry.fin 1)
      2 3 4 7 7 Mode.random (Or.inr rfl)⟩

/-- C4: for every Transformation with non-zero determinant and every
Point, applying the inverse after the map returns the original Point
exactly (hence within any tolerance). -/
theorem claim_C4_invert_round_trip (f : Moeb) (p : Point) (hdet : det f ≠ 0) :
    apply (invert f) (apply f p) = p := by
  obtain ⟨a, b, c, d⟩ := f
  have hΔ : a * d - b * c ≠ 0 := hdet
  cases p with
  | inf =>
      by_cases hc : c = 0
      · subst hc
        simp [apply, invert, det]
      · have h1 : apply (⟨a, b, c, d⟩ : Moeb) Point.inf = Point.fin (a / c) 0 := by
          simp [apply, hc]
        rw [h1]
        simp only [apply, invert, det]
        split_ifs with h
        · rfl
        · exfalso
          apply h
          constructor
          · field_simp
            ring
          · ring
  | fin x y =>
      by_cases hpole : c * x + d = 0 ∧ c * y = 0
      · obtain ⟨h1, h2⟩ := hpole
        have hc : c ≠ 0 := by
          intro h0
          apply hΔ
          rw [h0] at h1
          rw [h0]
          simp at h1
          rw [h1]
          ring
        have hy : y = 0 := by
          rcases mul_eq_zero.mp h2 with h | h
          · exact absurd h hc
          · exact h
        subst hy
        have hstep : apply (⟨a, b, c, d⟩ : Moeb) (Point.fin x 0) = Point.inf := by
          simp only [apply]
          rw [if_pos ⟨h1, h2⟩]
        rw [hstep]
        have hc2 : ¬(-c / (a * d - b * c) = 0) := by
          simp only [div_eq_zero_iff, neg_eq_zero]
          push_neg
          exact ⟨hc, hΔ⟩
        simp only [apply, invert, det]
        rw [if_neg hc2]
        simp only [Point.fin.injEq]
        refine ⟨?_, trivial⟩
        have hx : x = -(d / c) := by
          field_simp
          linear_combination h1
        rw [hx]
        rw [div_div_div_eq]
        rw [show -(d / c) = -d / c from (neg_div c d).symm]
        rw [div_eq_div_iff (mul_ne_zero hΔ (neg_ne_zero.mpr hc)) hc]
        ring
      · have hq : (c * x + d) ^ 2 + (c * y) ^ 2 ≠ 0 := by
          intro h0
          exact hpole ((sq_add_sq_eq_zero_iff _ _).mp h0)
        have hstep : apply (⟨a, b, c, d⟩ : Moeb) (Point.fin x y) = Point.fin
            (((a * x + b) * (c * x + d) + (a * y) * (c * y)) /
              ((c * x + d) ^ 2 + (c * y) ^ 2))
            (((a * y) * (c * x + d) - (a * x + b) * (c * y)) /
              ((c * x + d) ^ 2 + (c * y) ^ 2)) := by
          simp only [apply]
          rw [if_neg hpole]
        rw [hstep]
        set X := ((a * x + b) * (c * x + d) + (a * y) * (c * y)) /
            ((c * x + d) ^ 2 + (c * y) ^ 2) with hX
        set Y := ((a * y) * (c * x + d) - (a * x + b) * (c * y)) /
            ((c * x + d) ^ 2 + (c * y) ^ 2) with hY
        have hkey : (-c / (a * d - b * c) * X + a / (a * d - b * c)) ^ 2 +
            (-c / (a * d - b * c) * Y) ^ 2 = 1 / ((c * x + d) ^ 2 + (c * y) ^ 2) := by
          rw [hX, hY]
          field_simp
          ring
        simp only [apply, invert, det]
        split_ifs with hcnd
        · exfalso
          obtain ⟨h01, h02⟩ := hcnd
          rw [h01, h02] at hkey
          norm_num at hkey
          exact hq hkey.symm
        · simp only [Point.fin.injEq]
          constructor
          · rw [hkey, hX, hY]
            field_simp
            ring
          · rw [hkey, hX, hY]
            field_simp
            ring

/-- C4 witness: the round trip through the parabolic generator at the
finite point (2, 3). -/
theorem claim_C4_invert_round_trip_witness :
    det (⟨1, 1, 0, 1⟩ : Moeb) ≠ 0 ∧
    apply (invert ⟨1, 1, 0, 1⟩) (apply ⟨1, 1, 0, 1⟩ (Point.fin 2 3)) = Point.fin 2 3 :=
  ⟨by norm_num [det],
    claim_C4_invert_round_trip ⟨1, 1, 0, 1⟩ (Point.fin 2 3) (by norm_num [det])⟩


/-- C5: every point of the i-th polyline returned by the geodesic-orbit
operation lies exactly on the circline determined by mapping the two
original boundary endpoints through the i-th enumerated group element;
the transformed curve is computed from its transformed defining
parameters, never by refitting transformed samples. -/
theorem claim_C5_geodesic_points_on_circline
    (G : List Moeb) (pq : Bdry × Bdry) (count res seed : ℕ) (mode : Mode)
    (ws : List Moeb) (polys : List (List Point))
    (hws : enumerate G count mode seed = Except.ok ws)
    (hpolys : geodesic_orbit G pq count res mode seed = Except.ok polys)
    (i : ℕ) (pt : Point) (hpt : pt ∈ polys.getD i []) :
    onCirclinePt (applyBdry (ws.getD i identityMoeb) pq.1)
      (applyBdry (ws.getD i identityMoeb) pq.2) pt := by
  have hpolys2 : polys = ws.map (fun w =>
      sampleGeodesic (applyBdry w pq.1) (applyBdry w pq.2) res) := by
    simp only [geodesic_orbit, hws] at hpolys
    by_cases h : pq.1 = pq.2
    · rw [if_pos h] at hpolys
      exact absurd hpolys (by simp)
    · rw [if_neg h] at hpolys
      exact (Except.ok.inj hpolys).symm
  subst hpolys2
  rw [List.getD_eq_getElem?_getD, List.getElem?_map] at hpt
  rw [List.getD_eq_getElem?_getD]
  cases hw : ws[i]? with
  | none => rw [hw] at hpt; simp at hpt
  | some w =>
      rw [hw] at hpt
      simp only [Option.map_some, Option.getD_some] at hpt ⊢
      exact sampleGeodesic_on _ _ res pt hpt

/-- C5 witness: a single generator, the vertical geodesic over zero,
count one and resolution one; the sampled point lies on the transformed
circline. -/
theorem claim_C5_geodesic_points_on_circline_witness :
    onCirclinePt (applyBdry (wordToMoeb [(⟨1, 1, 0, 1⟩ : Moeb)] []) (Bdry.fin 0))
      (applyBdry (wordToMoeb [(⟨1, 1, 0, 1⟩ : Moeb)] []) Bdry.inf)
      (Point.fin 0 10) :=
  claim_C5_geodesic_points_on_circline [⟨1, 1, 0, 1⟩] (Bdry.fin 0, Bdry.inf) 1 1 0
    Mode.sequential [wordToMoeb [⟨1, 1, 0, 1⟩] []]
    [sampleGeodesic (applyBdry (wordToMoeb [⟨1, 1, 0, 1⟩] []) (Bdry.fin 0))
      (applyBdry (wordToMoeb [⟨1, 1, 0, 1⟩] []) Bdry.inf) 1]
    rfl rfl 0 (Point.fin 0 10)
    (by
      have hword : wordToMoeb [(⟨1, 1, 0, 1⟩ : Moeb)] [] = identityMoeb := rfl
      rw [hword]
      have h1 : applyBdry identityMoeb (Bdry.fin 0) = Bdry.fin 0 := by
        simp only [applyBdry, identityMoeb]
        norm_num
      have h2 : applyBdry identityMoeb Bdry.inf = Bdry.inf := by
        simp [applyBdry, identityMoeb]
      rw [List.getD_cons_zero, h1, h2]
      norm_num [sampleGeodesic, rayHeights, Hmax, List.range_succ])

/-- C10: the Infinity sentinel never appears inside a polyline returned
by the geodesic-orbit or horocyclic-orbit operations: every returned
point is a finite coordinate pair. -/
theorem claim_C10_polyline_points_finite
    (G : List Moeb) (pq : Bdry × Bdry) (height : ℚ) (count res seed : ℕ) (mode : Mode)
    (gp hp : List (List Point)) (poly : List Point) (pt : Point) :
    (geodesic_orbit G pq count res mode seed = Except.ok gp →
      poly ∈ gp → pt ∈ poly → ∃ x y, pt = Point.fin x y) ∧
    (horocyclic_orbit G height count res mode seed = Except.ok hp →
      poly ∈ hp → pt ∈ poly → ∃ x y, pt = Point.fin x y) := by
  constructor
  · intro hok hpoly hpt
    cases he : enumerate G count mode seed with
    | error e => simp [geodesic_orbit, he] at hok
    | ok ws =>
        simp only [geodesic_orbit, he] at hok
        by_cases h : pq.1 = pq.2
        · rw [if_pos h] at hok; exact absurd hok (by simp)
        · rw [if_neg h] at hok
          obtain rfl := (Except.ok.inj hok).symm
          obtain ⟨w, _, rfl⟩ := List.mem_map.mp hpoly
          exact sampleGeodesic_fin _ _ res pt hpt
  · intro hok hpoly hpt
    cases he : enumerate G count mode seed with
    | error e => simp [horocyclic_orbit, he] at hok
    | ok ws =>
        simp only [horocyclic_orbit, he] at hok
        by_cases h : height ≤ 0
        · rw [if_pos h] at hok; exact absurd hok (by simp)
        · rw [if_neg h] at hok
          obtain rfl := (Except.ok.inj hok).symm
          obtain ⟨w, _, rfl⟩ := List.mem_map.mp hpoly
          exact sampleHoro_fin _ res pt hpt

/-- C10 witness: the sampled vertical-ray point of the concrete geodesic
call is a finite pair. -/
theorem claim_C10_polyline_points_finite_witness :
    ∃ x y, (Point.fin 0 10 : Point) = Point.fin x y :=
  (claim_C10_polyline_points_finite [⟨1, 1, 0, 1⟩] (Bdry.fin 0, Bdry.inf) 2 1 1 0
      Mode.sequential
      [sampleGeodesic (applyBdry (wordToMoeb [⟨1, 1, 0, 1⟩] []) (Bdry.fin 0))
        (applyBdry (wordToMoeb [⟨1, 1, 0, 1⟩] []) Bdry.inf) 1]
      []
      (sampleGeodesic (applyBdry (wordToMoeb [⟨1, 1, 0, 1⟩] []) (Bdry.fin 0))
        (applyBdry (wordToMoeb [⟨1, 1, 0, 1⟩] []) Bdry.inf) 1)
      (Point.fin 0 10)).1 rfl (List.mem_singleton.mpr rfl)
    (by
      have hword : wordToMoeb [(⟨1, 1, 0, 1⟩ : Moeb)] [] = identityMoeb := rfl
      rw [hword]
      have h1 : applyBdry identityMoeb (Bdry.fin 0) = Bdry.fin 0 := by
        simp only [applyBdry, identityMoeb]
        norm_num
      have h2 : applyBdry identityMoeb Bdry.inf = Bdry.inf := by
        simp [applyBdry, identityMoeb]
      rw [h1, h2]
      norm_num [sampleGeodesic, rayHeights, Hmax, List.range_succ])


/-- C9: a generator sequence with duplicate entries is accepted by the
horocyclic-orbit operation, which still returns exactly count polylines;
duplicates are distinct positions of the ordered generator sequence. -/
theorem claim_C9_duplicate_generators_accepted
    (h e : Moeb) (height : ℚ) (count res seed : ℕ) (mode : Mode) (hh : 0 < height) :
    ∃ out, horocyclic_orbit [h, e, e, h] height count res mode seed = Except.ok out ∧
      out.length = count := by
  obtain ⟨ws, hws, hlen⟩ := enumerate_ok [h, e, e, h] count mode seed (by simp)
  refine ⟨ws.map (fun w => sampleHoro (transformHoro w (Horo.atInf height)) res), ?_, ?_⟩
  · simp only [horocyclic_orbit, hws]
    rw [if_neg (not_le.mpr hh)]
  · rw [List.length_map]; exact hlen

/-- C9 witness: the duplicated modular-group generator list of the
horocyclic example script, with positive height two. -/
theorem claim_C9_duplicate_generators_accepted_witness :
    ∃ out, horocyclic_orbit [⟨1, 1, 0, 1⟩, ⟨0, -1, 1, 0⟩, ⟨0, -1, 1, 0⟩, ⟨1, 1, 0, 1⟩]
        2 3 2 Mode.sequential 0 = Except.ok out ∧ out.length = 3 :=
  claim_C9_duplicate_generators_accepted ⟨1, 1, 0, 1⟩ ⟨0, -1, 1, 0⟩ 2 3 2 0 Mode.sequential
    (by norm_num)

end Fuchsian
